import Mathlib

/-!
Shallow embedding of the quantum-computing simulator (`QCS.cpp`, `Grover.cpp`)
and proofs checking the repository's specification against the code.

Conventions of the embedding:
* machine integers (`ll`, `int`) become `ℕ`; the C++ code casts through
  `__int128` before every `%`, so no overflow occurs and `ℕ` is faithful;
* `double`/`complex<double>` amplitudes become exact `ℝ`/`ℂ`;
* the pseudo-random sources (`mt19937_64 rnd`, `uniform_real_distribution`)
  are modelled as explicit parameters: a uniform draw in `[0,1)` becomes a
  `u : ℝ` argument, a raw 64-bit draw of `rnd()` becomes a `u : ℕ` argument;
* a state vector `vec a` of a `Qubits` object with `n` qubits becomes a
  function `ℕ → ℂ`; the loops `for(s=0;s<=S;s++) b[target(s)] += coeff*a[s]`
  that rebuild the vector become sums over `Finset.range (2^n)`.
-/

namespace QCS

/-- Embedding of `ll power(ll x,ll b,ll n)` from `QCS.cpp`.  One step of the
`while(b)` loop: the source executes `if(b&1)res=(__int128)x*x%n;` followed by
`x=(__int128)x*x%n; b>>=1;`.  Note that the source really assigns `x*x%n` to
`res` (not `res*x%n`): the embedding reproduces this faithfully. -/
def powerGo (x b n res : ℕ) : ℕ :=
  if b = 0 then res
  else powerGo ((x * x) % n) (b / 2) n (if b % 2 = 1 then (x * x) % n else res)
termination_by b
decreasing_by exact Nat.div_lt_self (Nat.pos_of_ne_zero (by assumption)) one_lt_two

/-- Embedding of `power`: `res` starts at `1`, the loop runs while `b ≠ 0`. -/
def power (x b n : ℕ) : ℕ := powerGo x b n 1

/-- The integer transform that `mul` applies to the second register:
`w = (__int128)(s>>m)*v%N` maps the register value `u = s>>m` to `u*v mod N`. -/
def mulMap (v N : ℕ) : ℕ → ℕ := fun u => u * v % N

/-- Embedding of the base draw `a=rnd()%(n-1)+1` in `factor` (`QCS.cpp`),
with the raw 64-bit generator output `u` made explicit. -/
def drawBase (N u : ℕ) : ℕ := u % (N - 1) + 1

/-- One step of the inner convergent loop of `shor_quantum_part`:
`y += frac[i]*x; swap(x,y);` turns the pair `(x, y)` into `(frac[i]*x + y, x)`. -/
def convStep (xy : ℕ × ℕ) (a : ℕ) : ℕ × ℕ := (a * xy.1 + xy.2, xy.1)

/-- The inner loop `for(int i=frac.size()-2;i>=0;i--) y+=frac[i]*x,swap(x,y);`
of `shor_quantum_part`, run on the entries of `frac` below the just-pushed
quotient `x0`, from the last down to the first; `y` starts at `1`. -/
def convEval (frac : List ℕ) (x0 : ℕ) : ℕ × ℕ := frac.reverse.foldl convStep (x0, 1)

/-- Embedding of the continued-fraction loop `while(q){...}` of
`shor_quantum_part` (`QCS.cpp` lines 116-127): state `(p, q, frac)`, one
iteration computes `x0 = p/q`, pushes it on `frac`, evaluates the convergent,
breaks if `x ≥ N`, returns `x` if `x ≠ 0 && power(a,x,N)==1`, and otherwise
continues with `p = q`, `q = tmp % q` (`tmp` is the old `p`).  The value `0`
stands for falling out of the loop (or breaking) with no period found. -/
def cfSearch (a N : ℕ) (p q : ℕ) (frac : List ℕ) : ℕ :=
  if hq : q = 0 then 0
  else
    let x0 := p / q
    let frac2 := frac ++ [x0]
    let x := (convEval frac x0).1
    if N ≤ x then 0
    else if x ≠ 0 ∧ power a x N = 1 then x
    else cfSearch a N q (p % q) frac2
termination_by q
decreasing_by exact Nat.mod_lt _ (Nat.pos_of_ne_zero hq)

/-- The successive values of `x` computed (and tested by the guards) by the
continued-fraction loop of `shor_quantum_part`, in order, for the run starting
from `(p, q, frac)`.  The list ends when the loop returns or breaks. -/
def cfCandidates (a N : ℕ) (p q : ℕ) (frac : List ℕ) : List ℕ :=
  if hq : q = 0 then []
  else
    let x0 := p / q
    let frac2 := frac ++ [x0]
    let x := (convEval frac x0).1
    x :: (if N ≤ x then []
      else if x ≠ 0 ∧ power a x N = 1 then []
      else cfCandidates a N q (p % q) frac2)
termination_by q
decreasing_by exact Nat.mod_lt _ (Nat.pos_of_ne_zero hq)

/-- Claim C1: the spec says `power(x, b, n)` is fast modular exponentiation,
returning `x^b mod n`, and that the oracle multiplier `v = power(a, 2^i, N)`
equals `a^(2^i) mod N`.  The code disagrees: because the loop body assigns
`res = x*x%n` instead of `res = res*x%n`, already `power(2, 2^0, 15) = 4`
while `2^(2^0) mod 15 = 2`. -/
theorem power_miscomputes :
    power 2 1 15 = 4 ∧ 2 ^ 1 % 15 = 2 ∧ power 2 1 15 ≠ 2 ^ 1 % 15 := by
  refine ⟨?_, by norm_num, ?_⟩ <;> simp [power, powerGo]

/-- Claim C2: for `aux = 128`, `2^m = 256`, `N = 15` the spec expects the
convergent denominator `2` to be the first candidate tested.  The code's inner
loop ends with `swap(x,y)`, leaving the convergent *numerator* in `x`: the
loop for `128/256` computes the candidates `0` (the integer part, which fails
the `x != 0` guard) and then `1` (the numerator of `[0;2] = 1/2`), never `2`,
and the search returns `0`.  Shown here with base `a = 2`. -/
theorem cf_first_candidates :
    cfCandidates 2 15 128 256 [] = [0, 1] ∧ cfSearch 2 15 128 256 [] = 0 := by
  have hp : power 2 1 15 = 4 := by simp [power, powerGo]
  constructor
  · rw [cfCandidates]; norm_num [convEval, convStep]
    rw [cfCandidates]; norm_num [convEval, convStep, hp]
    rw [cfCandidates]; norm_num
  · rw [cfSearch]; norm_num [convEval, convStep]
    rw [cfSearch]; norm_num [convEval, convStep, hp]
    rw [cfSearch]; norm_num

lemma card_filter_mod3 (M r : ℕ) (hr : r < 3) :
    ((Finset.range M).filter (fun u => u % 3 = r)).card
      = M / 3 + if r < M % 3 then 1 else 0 := by
  induction M with
  | zero => simp
  | succ M ih =>
    rw [Finset.range_succ, Finset.filter_insert]
    by_cases h : M % 3 = r
    · rw [if_pos h, Finset.card_insert_of_not_mem (by simp), ih]
      split_ifs <;> omega
    · rw [if_neg h, ih]
      split_ifs <;> omega

/-- Counterexample for claim C9: the base draw `a = rnd()%(n-1)+1` is not
uniform on `[1, n-1]`.  With the 64-bit generator output modelled as uniform
on `[0, 2^64)` and `n = 4`, the value `a = 1` has one more preimage than
`a = 2`, because `2^64 mod 3 = 1`. -/
theorem drawBase_not_uniform :
    ((Finset.range (2 ^ 64)).filter (fun u => drawBase 4 u = 1)).card ≠
      ((Finset.range (2 ^ 64)).filter (fun u => drawBase 4 u = 2)).card := by
  have e1 : ((Finset.range (2 ^ 64)).filter (fun u => drawBase 4 u = 1))
      = ((Finset.range (2 ^ 64)).filter (fun u => u % 3 = 0)) :=
    Finset.filter_congr (fun u _ => by unfold drawBase; omega)
  have e2 : ((Finset.range (2 ^ 64)).filter (fun u => drawBase 4 u = 2))
      = ((Finset.range (2 ^ 64)).filter (fun u => u % 3 = 1)) :=
    Finset.filter_congr (fun u _ => by unfold drawBase; omega)
  have hm : 2 ^ 64 % 3 = 1 := by norm_num
  rw [e1, e2, card_filter_mod3 _ _ (by norm_num), card_filter_mod3 _ _ (by norm_num), hm]
  norm_num

lemma powerGo_pow (b : ℕ) :
    ∀ x res n, b ≠ 0 → ∃ e, 1 ≤ e ∧ powerGo x b n res = x ^ e % n := by
  induction b using Nat.strong_induction_on with
  | _ b ih =>
    intro x res n hb
    rw [powerGo, if_neg hb]
    by_cases h2 : b / 2 = 0
    · have hb1 : b = 1 := by omega
      subst hb1
      rw [powerGo, if_pos rfl]
      refine ⟨2, one_le_two, ?_⟩
      simp [pow_two, Nat.mul_mod]
    · obtain ⟨e, he1, he⟩ := ih (b / 2) (by omega) (x * x % n)
        (if b % 2 = 1 then x * x % n else res) n h2
      refine ⟨2 * e, by omega, ?_⟩
      rw [he, ← Nat.pow_mod, ← pow_two, ← pow_mul]

/-- The value `power x b n` with `b ≠ 0` always equals `x^e mod n` for some
exponent `e ≥ 1` (in fact `e = 2^(⌊log2 b⌋+1)`, not `b`). -/
lemma power_pow (x b n : ℕ) (hb : b ≠ 0) :
    ∃ e, 1 ≤ e ∧ power x b n = x ^ e % n := powerGo_pow b x 1 n hb

lemma power_coprime (a N b : ℕ) (ha : Nat.Coprime a N) (hb : b ≠ 0) :
    Nat.Coprime (power a b N) N := by
  obtain ⟨e, he1, he⟩ := power_pow a b N hb
  have h1 : Nat.Coprime (a ^ e) N := Nat.Coprime.pow_left e ha
  rw [he]
  unfold Nat.Coprime at *
  rw [← Nat.gcd_rec]
  rwa [Nat.gcd_comm]

/-- Counterexample for claim C3: with `N = 15`, `n = 4` (`2^n = 16 > N`) and
the multiplier `v = power(2, 2^0, 15) = 4` used by the oracle, the transform
`value -> value * v mod N` is not injective on the addressed index subspace
`[0, 2^n)`: both `0` and `15` map to `0`. -/
theorem mul_map_not_injective :
    ¬ Set.InjOn (mulMap (power 2 1 15) 15) (Set.Iio (2 ^ 4)) := by
  intro h
  have h0 : (0 : ℕ) ∈ Set.Iio (2 ^ 4) := by norm_num
  have h15 : (15 : ℕ) ∈ Set.Iio (2 ^ 4) := by norm_num
  have h015 := h h0 h15 (by simp [mulMap, power, powerGo])
  exact absurd h015 (by norm_num)

/-- Claim C3, amended: the transform `value -> value * v mod N` with
`v = power(a, 2^i, N)` and `a` coprime to `N` is a bijection on the residues
`[0, N)` (hence on the nonzero-amplitude support arising in the program,
where the second register always holds a value `< N`), though not on the
full addressed subspace `[0, 2^n)`. -/
theorem mul_map_bijOn_residues (i a N : ℕ) (hN : 0 < N) (ha : Nat.Coprime a N) :
    Set.BijOn (mulMap (power a (2 ^ i) N) N) (Set.Iio N) (Set.Iio N) := by
  set v := power a (2 ^ i) N with hv
  have hvN : Nat.Coprime v N := power_coprime a N (2 ^ i) ha (by positivity)
  have hmaps : Set.MapsTo (mulMap v N) (Set.Iio N) (Set.Iio N) := by
    intro u _
    exact Nat.mod_lt _ hN
  have hinj : Set.InjOn (mulMap v N) (Set.Iio N) := by
    intro u1 hu1 u2 hu2 h12
    have h12m : u1 * v % N = u2 * v % N := h12
    have hmod : u1 ≡ u2 [MOD N] :=
      Nat.ModEq.cancel_right_of_coprime (Nat.coprime_comm.mp hvN) h12m
    calc u1 = u1 % N := (Nat.mod_eq_of_lt hu1).symm
    _ = u2 % N := hmod
    _ = u2 := Nat.mod_eq_of_lt hu2
  refine ⟨hmaps, hinj, ?_⟩
  intro w hw
  have himg : (Finset.range N).image (mulMap v N) = Finset.range N := by
    apply Finset.eq_of_subset_of_card_le
    · intro t ht
      obtain ⟨u, hu, hut⟩ := Finset.mem_image.1 ht
      rw [Finset.mem_range] at hu ⊢
      rw [← hut]
      exact hmaps hu
    · rw [Finset.card_image_of_injOn (fun u hu u2 hu2 h12 =>
        hinj (Finset.mem_range.1 hu) (Finset.mem_range.1 hu2) h12)]
  have hwmem : w ∈ (Finset.range N).image (mulMap v N) := by
    rw [himg, Finset.mem_range]; exact hw
  obtain ⟨u, hu, hut⟩ := Finset.mem_image.1 hwmem
  exact ⟨u, Finset.mem_range.1 hu, hut⟩

/-- Witness for `mul_map_bijOn_residues` at `i = 0`, `a = 2`, `N = 15`. -/
theorem mul_map_bijOn_residues_witness :
    Set.BijOn (mulMap (power 2 (2 ^ 0) 15) 15) (Set.Iio 15) (Set.Iio 15) :=
  mul_map_bijOn_residues 0 2 15 (by norm_num) (by decide)

/-! ## The state-vector engine (`struct Qubits`) -/

/-- The state of `Qubits(m)` right after construction: `a[0] = 1`, all other
amplitudes `0` (generalised to an arbitrary basis index `k`). -/
def basisState (k : ℕ) : ℕ → ℂ := fun s => if s = k then 1 else 0

/-- The Hadamard matrix `H={{1/sqrt(2),1/sqrt(2)},{1/sqrt(2),-1/sqrt(2)}}`,
indexed as `H[d][c]`. -/
noncomputable def Hmat : ℕ → ℕ → ℂ := fun d c =>
  if d = 1 ∧ c = 1 then -((1 / Real.sqrt 2 : ℝ) : ℂ) else ((1 / Real.sqrt 2 : ℝ) : ℂ)

/-- The Pauli-X matrix `X={{0,1},{1,0}}`, indexed as `X[d][c]`. -/
def Xmat : ℕ → ℕ → ℂ := fun d c => if d = c then 0 else 1

/-- Embedding of `Qubits::apply_gate(Matrix T, int p)`: the loop
`for(s)for(d) b[s^((c^d)<<p)] += T[d][c]*a[s]` with `c=(s>>p)&1`, rendered as
the sum of all contributions routed to a given target index `t`. -/
noncomputable def apply_gate (n : ℕ) (T : ℕ → ℕ → ℂ) (p : ℕ) (a : ℕ → ℂ) : ℕ → ℂ :=
  fun t => ∑ s ∈ Finset.range (2 ^ n), ∑ d ∈ Finset.range 2,
    if s ^^^ ((((s >>> p) &&& 1) ^^^ d) <<< p) = t then T d ((s >>> p) &&& 1) * a s else 0

/-- The marginal probability accumulator of `Qubits::measure(int p)`:
`pro[c] = Σ norm(a[s])` over basis states `s` whose bit `p` equals `c`. -/
noncomputable def pro (n : ℕ) (a : ℕ → ℂ) (p c : ℕ) : ℝ :=
  ∑ s ∈ Finset.range (2 ^ n), if (s >>> p) &&& 1 = c then Complex.normSq (a s) else 0

/-- Embedding of `Qubits::measure(int p)` with the uniform draw `u` made
explicit: the outcome is `d = (u < pro[1])`, amplitudes whose bit `p` differs
from `d` are zeroed, the rest are divided by `coef = sqrt(pro[d])`. -/
noncomputable def measure (n p : ℕ) (u : ℝ) (a : ℕ → ℂ) : ℕ × (ℕ → ℂ) :=
  let d : ℕ := if u < pro n a p 1 then 1 else 0
  let coef : ℝ := Real.sqrt (pro n a p d)
  (d, fun s => if (s >>> p) &&& 1 ≠ d then 0 else a s / (coef : ℂ))

/-! ## The modular-multiplication oracle (`mul`) -/

/-- The index map applied by `mul`: a basis state `s` with control bit
`(s>>con)&1 = 0` is left in place; otherwise it is routed to
`w<<m | (s&((1<<m)-1))` where `w = (s>>m)*v%N`. -/
def mulTarget (con m v N : ℕ) (s : ℕ) : ℕ :=
  if (s >>> con) &&& 1 = 0 then s
  else (mulMap v N (s >>> m)) <<< m ||| (s &&& (2 ^ m - 1))

/-- Embedding of `void mul(Qubits &st,int con,ll a,ll N)`: the multiplier is
`v = power(a, 2^con, N)`, `n = st.n/3`, `m = 2n`, and the loop over
`s = 0..(1<<(3n))-1` accumulates `st.a[s]` at `mulTarget` of `s`. -/
noncomputable def mul (n3 con a N : ℕ) (st : ℕ → ℂ) : ℕ → ℂ :=
  let v := power a (2 ^ con) N
  let n := n3 / 3
  let m := 2 * n
  fun t => ∑ s ∈ Finset.range (2 ^ (3 * n)), if mulTarget con m v N s = t then st s else 0

/-! ## The QFT engine -/

/-- Embedding of the table build `for(i=1;i<(1<<m);i++)
rev[i]=rev[i>>1]|((i&1)<<(m-1));` from `shor_quantum_part` (the global `rev`
is zero-initialised, so `rev[0] = 0`).  Note the source recurrence reads
`rev[i>>1]` without shifting it right, unlike the usual bit-reversal table. -/
def revList (m lim : ℕ) : List ℕ :=
  (List.range lim).foldl
    (fun acc i => acc ++ [if i = 0 then 0 else acc.getD (i / 2) 0 ||| ((i &&& 1) <<< (m - 1))])
    []

/-- The exchange `swap(buf[i], buf[j])` on a functional buffer. -/
def swapIdx {α : Type} (f : ℕ → α) (i j : ℕ) : ℕ → α :=
  fun k => if k = i then f j else if k = j then f i else f k

/-- The permutation pass `for(i=0;i<lim;i++) if(i<rev[i])
swap(buf[i],buf[rev[i]]);` of `QFT`. -/
def revPermute {α : Type} (m : ℕ) (f : ℕ → α) : ℕ → α :=
  let rv := revList m (2 ^ m)
  (List.range (2 ^ m)).foldl
    (fun g i => if i < rv.getD i 0 then swapIdx g i (rv.getD i 0) else g) f

/-- The true bit-reversal permutation on `m`-bit indices (what the spec's
"bit-reverse-permute indices" step denotes): bit `j` of the result is bit
`m-1-j` of the input. -/
def bitRev (m i : ℕ) : ℕ :=
  ∑ j ∈ Finset.range m, (((i >>> j) &&& 1) <<< (m - 1 - j))

/-- One butterfly stage of `QFT` at half-block size `mid`: the in-place pair
update `u=buf[j+k], v=buf[j+k+mid]; buf[j+k]=u+v, buf[j+k+mid]=u-v;` rendered
functionally.  The twiddle `p` (`p*=w` with `w=exp(i*pi/mid)`) is computed by
the source but never read, so the pair update uses the raw `v`. -/
def stage {R : Type} [Ring R] (mid : ℕ) (f : ℕ → R) : ℕ → R :=
  fun i => if i &&& mid = 0 then f i + f (i ^^^ mid) else f (i ^^^ mid) - f i

/-- The full butterfly `for(mid=1;mid<lim;mid<<=1){...}` of `QFT`:
stages at `mid = 2^0, 2^1, ..., 2^(m-1)`. -/
def butterfly {R : Type} [Ring R] (m : ℕ) (f : ℕ → R) : ℕ → R :=
  (List.range m).foldl (fun g l => stage (2 ^ l) g) f

/-- Embedding of `void QFT(Qubits &st,int m,int t)`: extract the sub-vector at
indices `i|(t<<m)`, apply the swap pass, run the butterfly, compute
`pr = Σ norm(buf[i])` and write back `buf[i]/pr` (division by the squared
norm, not its square root). -/
noncomputable def QFT (m t : ℕ) (a : ℕ → ℂ) : ℕ → ℂ :=
  let buf : ℕ → ℂ := fun i => a (i ||| (t <<< m))
  let buf2 : ℕ → ℂ := butterfly m (revPermute m buf)
  let pr : ℝ := ∑ i ∈ Finset.range (2 ^ m), Complex.normSq (buf2 i)
  fun s => if s >>> m = t then buf2 (s &&& (2 ^ m - 1)) / (pr : ℂ) else a s

/-- Claim C5: the spec says `QFT` permutes the sub-vector by the bit-reversal
permutation and then runs a butterfly with twiddle factors `exp(i*pi/mid)`.
Neither holds.  The table recurrence `rev[i]=rev[i>>1]|((i&1)<<(m-1))` is
missing the `>>1` of the standard bit-reversal recurrence, making
`rev[i] = 2^(m-1)` for every `i ≥ 1`; at `m = 3` the swap pass maps the
identity buffer to `[0,4,1,2,3,5,6,7]`, whereas bit reversal gives
`[0,4,2,6,1,5,3,7]`.  And the butterfly never multiplies the twiddle `p`
into `v`, so on the (integer-valued) basis vector `e_2` it produces the
Walsh-Hadamard row `[1,1,-1,-1,1,1,-1,-1]` instead of complex DFT values. -/
theorem qft_not_bit_reversal_no_twiddle :
    (List.range 8).map (revPermute 3 (fun k => k)) = [0, 4, 1, 2, 3, 5, 6, 7]
    ∧ (List.range 8).map (bitRev 3) = [0, 4, 2, 6, 1, 5, 3, 7]
    ∧ (List.range 8).map (fun i => (revList 3 8).getD i 0) = [0, 4, 4, 4, 4, 4, 4, 4]
    ∧ (List.range 8).map (butterfly 3 (fun s => if s = 2 then (1 : ℤ) else 0))
        = [1, 1, -1, -1, 1, 1, -1, -1] := by
  refine ⟨by decide, by decide, by decide, by decide⟩

/-! ## Bit-slice toolkit

Every basis index `s` of an `n`-qubit register decomposes uniquely around a
bit position `p` as `s = hi * 2^(p+1) + c * 2^p + lo` with `c < 2` and
`lo < 2^p`; this is the decomposition all gate lemmas work with. -/

/-- Definition `sliceIdx p hi c lo = hi * 2^(p+1) + c * 2^p + lo`: the basis index whose
bit `p` is `c`, whose bits below `p` form `lo` and whose bits above `p`
form `hi`. -/
def sliceIdx (p hi c lo : ℕ) : ℕ := hi * 2 ^ (p + 1) + c * 2 ^ p + lo

lemma sliceIdx_eq (p hi c lo : ℕ) : sliceIdx p hi c lo = (hi * 2 + c) * 2 ^ p + lo := by
  simp only [sliceIdx, pow_succ]
  ring

lemma testBit_mul_add (w low m j : ℕ) (hlow : low < 2 ^ m) :
    (w * 2 ^ m + low).testBit j = if j < m then low.testBit j else w.testBit (j - m) := by
  rcases lt_or_ge j m with hj | hj
  · rw [if_pos hj, Nat.testBit_to_div_mod, Nat.testBit_to_div_mod]
    have e1 : w * 2 ^ m = w * 2 ^ (m - j) * 2 ^ j := by
      rw [mul_assoc, ← pow_add]
      congr 2
      omega
    rw [e1, add_comm, Nat.add_mul_div_right _ _ (pow_pos two_pos j)]
    have e2 : w * 2 ^ (m - j) = w * 2 ^ (m - j - 1) * 2 := by
      rw [mul_assoc, ← pow_succ]
      congr 2
      omega
    rw [e2, Nat.add_mul_mod_self_right]
  · rw [if_neg (not_lt.mpr hj), Nat.testBit_to_div_mod, Nat.testBit_to_div_mod]
    have e1 : (2 : ℕ) ^ j = 2 ^ m * 2 ^ (j - m) := by
      rw [← pow_add]
      congr 1
      omega
    have e2 : (w * 2 ^ m + low) / 2 ^ m = w := by
      rw [add_comm, Nat.add_mul_div_right _ _ (pow_pos two_pos m),
        Nat.div_eq_of_lt hlow, zero_add]
    rw [e1, ← Nat.div_div_eq_div_mul, e2]

lemma sliceIdx_mod (p hi c lo : ℕ) (hlo : lo < 2 ^ p) :
    sliceIdx p hi c lo % 2 ^ p = lo := by
  rw [sliceIdx_eq, mul_comm, Nat.mul_add_mod, Nat.mod_eq_of_lt hlo]

lemma sliceIdx_div (p hi c lo : ℕ) (hlo : lo < 2 ^ p) :
    sliceIdx p hi c lo / 2 ^ p = hi * 2 + c := by
  rw [sliceIdx_eq, add_comm, Nat.add_mul_div_right _ _ (pow_pos two_pos p),
    Nat.div_eq_of_lt hlo, zero_add]

lemma sliceIdx_bitp (p hi c lo : ℕ) (hc : c < 2) (hlo : lo < 2 ^ p) :
    (sliceIdx p hi c lo >>> p) &&& 1 = c := by
  rw [Nat.shiftRight_eq_div_pow, Nat.and_one_is_mod, sliceIdx_div p hi c lo hlo]
  omega

lemma sliceIdx_complete (p s : ℕ) :
    s = sliceIdx p (s / 2 ^ (p + 1)) (s / 2 ^ p % 2) (s % 2 ^ p) := by
  have h1 : s / 2 ^ (p + 1) = s / 2 ^ p / 2 := by
    rw [Nat.div_div_eq_div_mul, ← pow_succ]
  rw [sliceIdx_eq, h1]
  have h3 : s / 2 ^ p / 2 * 2 + s / 2 ^ p % 2 = s / 2 ^ p := by omega
  rw [h3]
  have h2 : s / 2 ^ p * 2 ^ p + s % 2 ^ p = s := by
    rw [mul_comm]
    exact Nat.div_add_mod s (2 ^ p)
  omega

lemma sliceIdx_inj (p hi c lo hi2 c2 lo2 : ℕ) (hc : c < 2) (hlo : lo < 2 ^ p)
    (hc2 : c2 < 2) (hlo2 : lo2 < 2 ^ p)
    (h : sliceIdx p hi c lo = sliceIdx p hi2 c2 lo2) :
    hi = hi2 ∧ c = c2 ∧ lo = lo2 := by
  have h1 : lo = lo2 := by
    rw [← sliceIdx_mod p hi c lo hlo, h, sliceIdx_mod p hi2 c2 lo2 hlo2]
  have h2 : hi * 2 + c = hi2 * 2 + c2 := by
    rw [← sliceIdx_div p hi c lo hlo, h, sliceIdx_div p hi2 c2 lo2 hlo2]
  omega

lemma sliceIdx_lt (n p hi c lo : ℕ) (hp : p < n) (hhi : hi < 2 ^ (n - p - 1))
    (hc : c < 2) (hlo : lo < 2 ^ p) : sliceIdx p hi c lo < 2 ^ n := by
  rw [sliceIdx_eq]
  have e1 : (2 : ℕ) ^ n = 2 ^ (n - p - 1) * 2 * 2 ^ p := by
    rw [mul_assoc, mul_comm 2 (2 ^ p), ← pow_succ, ← pow_add]
    congr 1
    omega
  calc (hi * 2 + c) * 2 ^ p + lo < (hi * 2 + c) * 2 ^ p + 2 ^ p := by omega
  _ = (hi * 2 + c + 1) * 2 ^ p := by ring
  _ ≤ 2 ^ (n - p - 1) * 2 * 2 ^ p := by
      apply Nat.mul_le_mul_right
      omega
  _ = 2 ^ n := e1.symm

lemma sliceIdx_testBit (p hi c lo j : ℕ) (hc : c < 2) (hlo : lo < 2 ^ p) :
    (sliceIdx p hi c lo).testBit j =
      if j < p then lo.testBit j
      else if j = p then decide (c = 1) else hi.testBit (j - p - 1) := by
  rw [sliceIdx_eq, testBit_mul_add _ _ _ _ hlo]
  rcases lt_or_ge j p with hj | hj
  · rw [if_pos hj, if_pos hj]
  · rw [if_neg (not_lt.mpr hj), if_neg (not_lt.mpr hj)]
    have e1 : hi * 2 + c = hi * 2 ^ 1 + c := by norm_num
    rw [e1, testBit_mul_add _ _ _ _ (by omega)]
    rcases eq_or_lt_of_le hj with hj2 | hj2
    · rw [if_pos (by omega : j - p < 1), if_pos hj2.symm]
      have hjp : j - p = 0 := by omega
      rw [hjp, Nat.testBit_to_div_mod, pow_zero, Nat.div_one]
      exact decide_eq_decide.mpr (by omega)
    · rw [if_neg (by omega : ¬ j - p < 1), if_neg (by omega : ¬ j = p)]

lemma sliceIdx_xor_pow (p hi c lo : ℕ) (hc : c < 2) (hlo : lo < 2 ^ p) :
    sliceIdx p hi c lo ^^^ (1 <<< p) = sliceIdx p hi (1 - c) lo := by
  apply Nat.eq_of_testBit_eq
  intro j
  rw [Nat.testBit_xor, Nat.one_shiftLeft, Nat.testBit_two_pow,
    sliceIdx_testBit p hi c lo j hc hlo, sliceIdx_testBit p hi (1 - c) lo j (by omega) hlo]
  rcases lt_trichotomy j p with hj | hj | hj
  · rw [if_pos hj, if_pos hj, decide_eq_false (by omega : ¬ p = j)]
    exact Bool.xor_false _
  · subst hj
    rw [if_neg (lt_irrefl j), if_neg (lt_irrefl j), if_pos rfl, if_pos rfl,
      decide_eq_true (rfl : j = j)]
    interval_cases c <;> simp
  · rw [if_neg (by omega : ¬ j < p), if_neg (by omega : ¬ j < p),
      if_neg (by omega : ¬ j = p), if_neg (by omega : ¬ j = p),
      decide_eq_false (by omega : ¬ p = j)]
    exact Bool.xor_false _

lemma sliceIdx_setbit (p hi c lo d : ℕ) (hc : c < 2) (hd : d < 2) (hlo : lo < 2 ^ p) :
    sliceIdx p hi c lo ^^^ ((c ^^^ d) <<< p) = sliceIdx p hi d lo := by
  interval_cases c <;> interval_cases d
  · simp [Nat.zero_shiftLeft]
  · simpa using sliceIdx_xor_pow p hi 0 lo (by omega) hlo
  · simpa using sliceIdx_xor_pow p hi 1 lo (by omega) hlo
  · simp [Nat.zero_shiftLeft]

lemma sum_range_mul_decomp {M : Type} [AddCommMonoid M] (A B : ℕ) (hB : 0 < B) (f : ℕ → M) :
    ∑ s ∈ Finset.range (A * B), f s
      = ∑ q ∈ Finset.range A, ∑ r ∈ Finset.range B, f (q * B + r) := by
  rw [← Finset.sum_product']
  refine Finset.sum_nbij' (fun s => (s / B, s % B)) (fun x => x.1 * B + x.2) ?_ ?_ ?_ ?_ ?_
  · intro s hs
    rw [Finset.mem_range] at hs
    rw [Finset.mem_product, Finset.mem_range, Finset.mem_range]
    exact ⟨Nat.div_lt_of_lt_mul (by rwa [mul_comm] at hs), Nat.mod_lt _ hB⟩
  · intro x hx
    rw [Finset.mem_product, Finset.mem_range, Finset.mem_range] at hx
    rw [Finset.mem_range]
    calc x.1 * B + x.2 < x.1 * B + B := by omega
    _ = (x.1 + 1) * B := by ring
    _ ≤ A * B := Nat.mul_le_mul_right _ (by omega)
  · intro s _
    simp only []
    rw [mul_comm]
    exact Nat.div_add_mod s B
  · intro x hx
    rw [Finset.mem_product, Finset.mem_range, Finset.mem_range] at hx
    have h1 : (x.1 * B + x.2) / B = x.1 := by
      rw [add_comm, Nat.add_mul_div_right _ _ hB, Nat.div_eq_of_lt hx.2, zero_add]
    have h2 : (x.1 * B + x.2) % B = x.2 := by
      rw [mul_comm, Nat.mul_add_mod, Nat.mod_eq_of_lt hx.2]
    dsimp only
    rw [h1, h2]
  · intro s hs
    congr 1
    rw [mul_comm]
    exact (Nat.div_add_mod s B).symm

/-- Splitting a sum over all `n`-bit basis indices by the value of the bits
above position `p` (`hi`), the bit at `p` (`c`) and the bits below `p` (`lo`). -/
lemma sum_range_two_pow_decomp {M : Type} [AddCommMonoid M] (n p : ℕ) (hp : p < n) (f : ℕ → M) :
    ∑ s ∈ Finset.range (2 ^ n), f s
      = ∑ hi ∈ Finset.range (2 ^ (n - p - 1)), ∑ c ∈ Finset.range 2,
          ∑ lo ∈ Finset.range (2 ^ p), f (sliceIdx p hi c lo) := by
  have e1 : (2 : ℕ) ^ n = 2 ^ (n - p - 1) * 2 ^ (p + 1) := by
    rw [← pow_add]
    congr 1
    omega
  rw [e1, sum_range_mul_decomp _ _ (pow_pos two_pos _)]
  refine Finset.sum_congr rfl fun hi _ => ?_
  have e2 : (2 : ℕ) ^ (p + 1) = 2 * 2 ^ p := by
    rw [pow_succ]
    ring
  rw [e2, sum_range_mul_decomp _ _ (pow_pos two_pos _)]
  refine Finset.sum_congr rfl fun c _ => Finset.sum_congr rfl fun lo _ => ?_
  congr 1
  simp only [sliceIdx]
  rw [e2]
  ring

/-- Closed form of `apply_gate` on a decomposed basis index: the two source
amplitudes sharing all bits except bit `p` are recombined through the rows of
the 2×2 matrix `T`. -/
lemma apply_gate_sliceIdx (n p : ℕ) (T : ℕ → ℕ → ℂ) (a : ℕ → ℂ) (hi c lo : ℕ)
    (hp : p < n) (hhi : hi < 2 ^ (n - p - 1)) (hc : c < 2) (hlo : lo < 2 ^ p) :
    apply_gate n T p a (sliceIdx p hi c lo)
      = T c 0 * a (sliceIdx p hi 0 lo) + T c 1 * a (sliceIdx p hi 1 lo) := by
  unfold apply_gate
  rw [sum_range_two_pow_decomp n p hp]
  have step1 : ∀ hi2 ∈ Finset.range (2 ^ (n - p - 1)), ∀ c2 ∈ Finset.range 2,
      ∀ lo2 ∈ Finset.range (2 ^ p),
      (∑ d ∈ Finset.range 2,
        if sliceIdx p hi2 c2 lo2 ^^^ ((((sliceIdx p hi2 c2 lo2 >>> p) &&& 1) ^^^ d) <<< p)
            = sliceIdx p hi c lo
        then T d ((sliceIdx p hi2 c2 lo2 >>> p) &&& 1) * a (sliceIdx p hi2 c2 lo2) else 0)
      = if hi2 = hi ∧ lo2 = lo then T c c2 * a (sliceIdx p hi2 c2 lo2) else 0 := by
    intro hi2 hhi2 c2 hc2 lo2 hlo2
    rw [Finset.mem_range] at hhi2 hc2 hlo2
    rw [sliceIdx_bitp p hi2 c2 lo2 hc2 hlo2]
    have e1 : ∀ d ∈ Finset.range 2,
        (if sliceIdx p hi2 c2 lo2 ^^^ ((c2 ^^^ d) <<< p) = sliceIdx p hi c lo
          then T d c2 * a (sliceIdx p hi2 c2 lo2) else 0)
        = if hi2 = hi ∧ d = c ∧ lo2 = lo then T d c2 * a (sliceIdx p hi2 c2 lo2) else 0 := by
      intro d hd
      rw [Finset.mem_range] at hd
      rw [sliceIdx_setbit p hi2 c2 lo2 d hc2 hd hlo2]
      refine if_congr ?_ rfl rfl
      constructor
      · intro h
        exact sliceIdx_inj p hi2 d lo2 hi c lo hd hlo2 hc hlo h
      · rintro ⟨h1, h2, h3⟩
        rw [h1, h2, h3]
    rw [Finset.sum_congr rfl e1]
    by_cases h : hi2 = hi ∧ lo2 = lo
    · have e2 : ∀ d ∈ Finset.range 2,
          (if hi2 = hi ∧ d = c ∧ lo2 = lo then T d c2 * a (sliceIdx p hi2 c2 lo2) else 0)
          = if d = c then T d c2 * a (sliceIdx p hi2 c2 lo2) else 0 :=
        fun d _ => if_congr ⟨fun hh => hh.2.1, fun hh => ⟨h.1, hh, h.2⟩⟩ rfl rfl
      rw [Finset.sum_congr rfl e2, if_pos h,
        Finset.sum_ite_eq' (Finset.range 2) c (fun d => T d c2 * a (sliceIdx p hi2 c2 lo2)),
        if_pos (Finset.mem_range.mpr hc)]
    · rw [if_neg h]
      exact Finset.sum_eq_zero fun d _ => if_neg (fun hh => h ⟨hh.1, hh.2.2⟩)
  rw [Finset.sum_congr rfl fun hi2 h1 => Finset.sum_congr rfl fun c2 h2 =>
    Finset.sum_congr rfl fun lo2 h3 => step1 hi2 h1 c2 h2 lo2 h3]
  have step2 : ∀ hi2 ∈ Finset.range (2 ^ (n - p - 1)), ∀ c2 ∈ Finset.range 2,
      (∑ lo2 ∈ Finset.range (2 ^ p),
        if hi2 = hi ∧ lo2 = lo then T c c2 * a (sliceIdx p hi2 c2 lo2) else 0)
      = if hi2 = hi then T c c2 * a (sliceIdx p hi2 c2 lo) else 0 := by
    intro hi2 _ c2 _
    by_cases h : hi2 = hi
    · have e3 : ∀ lo2 ∈ Finset.range (2 ^ p),
          (if hi2 = hi ∧ lo2 = lo then T c c2 * a (sliceIdx p hi2 c2 lo2) else 0)
          = if lo2 = lo then T c c2 * a (sliceIdx p hi2 c2 lo2) else 0 :=
        fun lo2 _ => if_congr ⟨fun hh => hh.2, fun hh => ⟨h, hh⟩⟩ rfl rfl
      rw [if_pos h, Finset.sum_congr rfl e3,
        Finset.sum_ite_eq' (Finset.range (2 ^ p)) lo
          (fun lo2 => T c c2 * a (sliceIdx p hi2 c2 lo2)),
        if_pos (Finset.mem_range.mpr hlo)]
    · rw [if_neg h]
      exact Finset.sum_eq_zero fun lo2 _ => if_neg (fun hh => h hh.1)
  rw [Finset.sum_congr rfl fun hi2 h1 => Finset.sum_congr rfl fun c2 h2 => step2 hi2 h1 c2 h2]
  have step3 : ∀ hi2 ∈ Finset.range (2 ^ (n - p - 1)),
      (∑ c2 ∈ Finset.range 2, if hi2 = hi then T c c2 * a (sliceIdx p hi2 c2 lo) else 0)
      = if hi2 = hi
        then T c 0 * a (sliceIdx p hi2 0 lo) + T c 1 * a (sliceIdx p hi2 1 lo) else 0 := by
    intro hi2 _
    by_cases h : hi2 = hi
    · rw [if_pos h, Finset.sum_congr rfl fun c2 (_ : c2 ∈ Finset.range 2) => if_pos h,
        Finset.sum_range_succ, Finset.sum_range_one]
    · rw [if_neg h]
      exact Finset.sum_eq_zero fun c2 _ => if_neg h
  rw [Finset.sum_congr rfl step3,
    Finset.sum_ite_eq' (Finset.range (2 ^ (n - p - 1))) hi
      (fun hi2 => T c 0 * a (sliceIdx p hi2 0 lo) + T c 1 * a (sliceIdx p hi2 1 lo)),
    if_pos (Finset.mem_range.mpr hhi)]

lemma lor_eq_add (w low m : ℕ) (hlow : low < 2 ^ m) :
    (w <<< m) ||| low = w * 2 ^ m + low := by
  apply Nat.eq_of_testBit_eq
  intro j
  rw [Nat.testBit_or, Nat.testBit_shiftLeft, testBit_mul_add _ _ _ _ hlow]
  rcases lt_or_ge j m with hj | hj
  · rw [if_pos hj, decide_eq_false (by omega), Bool.false_and, Bool.false_or]
  · rw [if_neg (not_lt.mpr hj), decide_eq_true (by omega), Bool.true_and]
    have hz : low.testBit j = false :=
      Nat.testBit_lt_two_pow (lt_of_lt_of_le hlow (Nat.pow_le_pow_right (by norm_num) hj))
    rw [hz, Bool.or_false]

/-- If the rows of the 2×2 matrix `T` preserve `|x|²+|y|²` pointwise, then
`apply_gate` preserves the total squared norm of every state. -/
lemma apply_gate_norm (n p : ℕ) (T : ℕ → ℕ → ℂ) (a : ℕ → ℂ) (hp : p < n)
    (hT : ∀ x y : ℂ,
      Complex.normSq (T 0 0 * x + T 0 1 * y) + Complex.normSq (T 1 0 * x + T 1 1 * y)
        = Complex.normSq x + Complex.normSq y) :
    ∑ t ∈ Finset.range (2 ^ n), Complex.normSq (apply_gate n T p a t)
      = ∑ s ∈ Finset.range (2 ^ n), Complex.normSq (a s) := by
  rw [sum_range_two_pow_decomp n p hp (fun t => Complex.normSq (apply_gate n T p a t)),
    sum_range_two_pow_decomp n p hp (fun s => Complex.normSq (a s))]
  refine Finset.sum_congr rfl fun hi h1 => ?_
  rw [Finset.mem_range] at h1
  calc ∑ c ∈ Finset.range 2, ∑ lo ∈ Finset.range (2 ^ p),
        Complex.normSq (apply_gate n T p a (sliceIdx p hi c lo))
      = ∑ lo ∈ Finset.range (2 ^ p), ∑ c ∈ Finset.range 2,
        Complex.normSq (apply_gate n T p a (sliceIdx p hi c lo)) := Finset.sum_comm
  _ = ∑ lo ∈ Finset.range (2 ^ p), ∑ c ∈ Finset.range 2,
        Complex.normSq (a (sliceIdx p hi c lo)) := by
      refine Finset.sum_congr rfl fun lo h3 => ?_
      rw [Finset.mem_range] at h3
      rw [Finset.sum_range_succ, Finset.sum_range_one,
        Finset.sum_range_succ, Finset.sum_range_one,
        apply_gate_sliceIdx n p T a hi 0 lo hp h1 (by omega) h3,
        apply_gate_sliceIdx n p T a hi 1 lo hp h1 (by omega) h3]
      exact hT (a (sliceIdx p hi 0 lo)) (a (sliceIdx p hi 1 lo))
  _ = ∑ c ∈ Finset.range 2, ∑ lo ∈ Finset.range (2 ^ p),
        Complex.normSq (a (sliceIdx p hi c lo)) := Finset.sum_comm

/-- The rows of the Hadamard matrix preserve `|x|²+|y|²` exactly:
`(1/√2)² = 1/2` in exact real arithmetic. -/
lemma Hmat_rows (x y : ℂ) :
    Complex.normSq (Hmat 0 0 * x + Hmat 0 1 * y) + Complex.normSq (Hmat 1 0 * x + Hmat 1 1 * y)
      = Complex.normSq x + Complex.normSq y := by
  have h00 : Hmat 0 0 = ((1 / Real.sqrt 2 : ℝ) : ℂ) := by simp [Hmat]
  have h01 : Hmat 0 1 = ((1 / Real.sqrt 2 : ℝ) : ℂ) := by simp [Hmat]
  have h10 : Hmat 1 0 = ((1 / Real.sqrt 2 : ℝ) : ℂ) := by simp [Hmat]
  have h11 : Hmat 1 1 = -((1 / Real.sqrt 2 : ℝ) : ℂ) := by simp [Hmat]
  rw [h00, h01, h10, h11]
  have e1 : ((1 / Real.sqrt 2 : ℝ) : ℂ) * x + ((1 / Real.sqrt 2 : ℝ) : ℂ) * y
      = ((1 / Real.sqrt 2 : ℝ) : ℂ) * (x + y) := by ring
  have e2 : ((1 / Real.sqrt 2 : ℝ) : ℂ) * x + -((1 / Real.sqrt 2 : ℝ) : ℂ) * y
      = ((1 / Real.sqrt 2 : ℝ) : ℂ) * (x - y) := by ring
  rw [e1, e2, Complex.normSq_mul, Complex.normSq_mul, Complex.normSq_ofReal]
  have h2 : (1 / Real.sqrt 2 : ℝ) * (1 / Real.sqrt 2 : ℝ) = 1 / 2 := by
    rw [div_mul_div_comm, one_mul, Real.mul_self_sqrt (by norm_num : (0 : ℝ) ≤ 2)]
  rw [h2, Complex.normSq_add, Complex.normSq_sub]
  ring

/-- The rows of the Pauli-X matrix swap the pair, preserving `|x|²+|y|²`. -/
lemma Xmat_rows (x y : ℂ) :
    Complex.normSq (Xmat 0 0 * x + Xmat 0 1 * y) + Complex.normSq (Xmat 1 0 * x + Xmat 1 1 * y)
      = Complex.normSq x + Complex.normSq y := by
  have h00 : Xmat 0 0 = 0 := by simp [Xmat]
  have h01 : Xmat 0 1 = 1 := by simp [Xmat]
  have h10 : Xmat 1 0 = 1 := by simp [Xmat]
  have h11 : Xmat 1 1 = 0 := by simp [Xmat]
  rw [h00, h01, h10, h11]
  ring_nf

/-- Pushing a sum of squared magnitudes through an index map `F` that is
injective on the support of `ψ`: the rearranged amplitudes keep the norm. -/
lemma sum_normSq_pushforward (L T2 : Finset ℕ) (F : ℕ → ℕ) (ψ : ℕ → ℂ)
    (hmaps : ∀ s ∈ L, ψ s ≠ 0 → F s ∈ T2)
    (hinj : ∀ s ∈ L, ∀ s2 ∈ L, ψ s ≠ 0 → ψ s2 ≠ 0 → F s = F s2 → s = s2) :
    ∑ t ∈ T2, Complex.normSq (∑ s ∈ L, if F s = t then ψ s else 0)
      = ∑ s ∈ L, Complex.normSq (ψ s) := by
  classical
  set S := L.filter (fun s => ψ s ≠ 0) with hS
  have hSsub : S ⊆ L := Finset.filter_subset _ _
  have hSne : ∀ s ∈ S, ψ s ≠ 0 := fun s hs => (Finset.mem_filter.1 hs).2
  have hinj2 : ∀ x ∈ S, ∀ y ∈ S, F x = F y → x = y := fun x hx y hy h =>
    hinj x (hSsub hx) y (hSsub hy) (hSne x hx) (hSne y hy) h
  have hinner : ∀ t, (∑ s ∈ L, if F s = t then ψ s else 0)
      = ∑ s ∈ S, if F s = t then ψ s else 0 := by
    intro t
    rw [hS]
    symm
    refine Finset.sum_filter_of_ne fun s _ hne => ?_
    intro hz
    rw [hz] at hne
    simp at hne
  rw [Finset.sum_congr rfl fun t _ => congrArg Complex.normSq (hinner t)]
  have himg : S.image F ⊆ T2 := by
    intro t ht
    obtain ⟨s, hs, hst⟩ := Finset.mem_image.1 ht
    exact hst ▸ hmaps s (hSsub hs) (hSne s hs)
  have hvanish : ∀ t ∈ T2, t ∉ S.image F →
      Complex.normSq (∑ s ∈ S, if F s = t then ψ s else 0) = 0 := by
    intro t _ htn
    have hzero : (∑ s ∈ S, if F s = t then ψ s else 0) = 0 := by
      refine Finset.sum_eq_zero fun s hs => if_neg fun hFs => ?_
      exact htn (Finset.mem_image.2 ⟨s, hs, hFs⟩)
    rw [hzero]
    exact Complex.normSq_zero
  rw [← Finset.sum_subset himg hvanish, Finset.sum_image hinj2]
  have hcol : ∀ s0 ∈ S, (∑ s ∈ S, if F s = F s0 then ψ s else 0) = ψ s0 := by
    intro s0 hs0
    rw [Finset.sum_eq_single_of_mem s0 hs0 fun s hs hne =>
      if_neg fun hFF => hne (hinj2 s hs s0 hs0 hFF), if_pos rfl]
  rw [Finset.sum_congr rfl fun s0 h => congrArg Complex.normSq (hcol s0 h), hS]
  refine Finset.sum_filter_of_ne fun s _ hne => ?_
  intro hz
  rw [hz] at hne
  simp at hne

lemma bitval_testBit (s p : ℕ) : (s >>> p) &&& 1 = if s.testBit p then 1 else 0 := by
  rw [Nat.shiftRight_eq_div_pow, Nat.and_one_is_mod, Nat.testBit_to_div_mod]
  rcases Nat.mod_two_eq_zero_or_one (s / 2 ^ p) with h | h <;> simp [h]

/-- The index map of `mul` keeps addressed indices in range: the routed value
`w < N ≤ 2^k` lands in the second register. -/
lemma mulTarget_mem (k con v N : ℕ) (hN : 0 < N) (hNk : N ≤ 2 ^ k)
    (s : ℕ) (hs : s < 2 ^ (3 * k)) : mulTarget con (2 * k) v N s < 2 ^ (3 * k) := by
  unfold mulTarget
  split_ifs with h
  · exact hs
  · rw [Nat.and_pow_two_sub_one_eq_mod,
      lor_eq_add _ _ _ (Nat.mod_lt _ (pow_pos two_pos _))]
    have hw : mulMap v N (s >>> (2 * k)) < N := Nat.mod_lt _ hN
    have hlow : s % 2 ^ (2 * k) < 2 ^ (2 * k) := Nat.mod_lt _ (pow_pos two_pos _)
    have e1 : (2 : ℕ) ^ (3 * k) = 2 ^ k * 2 ^ (2 * k) := by
      rw [← pow_add]
      congr 1
      omega
    calc mulMap v N (s >>> (2 * k)) * 2 ^ (2 * k) + s % 2 ^ (2 * k)
        < (mulMap v N (s >>> (2 * k)) + 1) * 2 ^ (2 * k) := by
          rw [add_mul, one_mul]
          omega
    _ ≤ 2 ^ k * 2 ^ (2 * k) := Nat.mul_le_mul_right _ (by omega)
    _ = 2 ^ (3 * k) := e1.symm

/-- On basis states whose second-register value is `< N`, the index map of
`mul` is injective, provided the multiplier `v` is coprime to `N` and the
control qubit lies in the first register (`con < m = 2k`). -/
lemma mulTarget_inj (k con v N : ℕ) (hcon : con < 2 * k) (hN : 0 < N)
    (hv : Nat.Coprime v N) (s t : ℕ)
    (hsupp_s : s >>> (2 * k) < N) (hsupp_t : t >>> (2 * k) < N)
    (h : mulTarget con (2 * k) v N s = mulTarget con (2 * k) v N t) : s = t := by
  have hmix : ∀ u : ℕ, ((mulMap v N (u >>> (2 * k))) <<< (2 * k) ||| (u &&& (2 ^ (2 * k) - 1)))
      >>> con &&& 1 = (u >>> con) &&& 1 := by
    intro u
    rw [Nat.and_pow_two_sub_one_eq_mod,
      lor_eq_add _ _ _ (Nat.mod_lt _ (pow_pos two_pos _)),
      bitval_testBit _ con, bitval_testBit u con,
      testBit_mul_add _ _ _ _ (Nat.mod_lt _ (pow_pos two_pos _)), if_pos hcon,
      Nat.testBit_mod_two_pow, decide_eq_true hcon, Bool.true_and]
  unfold mulTarget at h
  by_cases hs : (s >>> con) &&& 1 = 0 <;> by_cases ht : (t >>> con) &&& 1 = 0
  · rwa [if_pos hs, if_pos ht] at h
  · exfalso
    rw [if_pos hs, if_neg ht] at h
    have hbit := hmix t
    rw [← h, hs] at hbit
    exact ht hbit.symm
  · exfalso
    rw [if_neg hs, if_pos ht] at h
    have hbit := hmix s
    rw [h, ht] at hbit
    exact hs hbit.symm
  · rw [if_neg hs, if_neg ht] at h
    rw [Nat.and_pow_two_sub_one_eq_mod, Nat.and_pow_two_sub_one_eq_mod,
      lor_eq_add _ _ _ (Nat.mod_lt _ (pow_pos two_pos _)),
      lor_eq_add _ _ _ (Nat.mod_lt _ (pow_pos two_pos _))] at h
    have hlow : s % 2 ^ (2 * k) = t % 2 ^ (2 * k) := by
      have h1 := congrArg (· % 2 ^ (2 * k)) h
      simpa [Nat.mul_add_mod', Nat.add_mul_mod_self_left, mul_comm, Nat.mul_add_mod,
        Nat.mod_eq_of_lt (Nat.mod_lt s (pow_pos two_pos (2 * k))),
        Nat.mod_eq_of_lt (Nat.mod_lt t (pow_pos two_pos (2 * k)))] using h1
    have hw : mulMap v N (s >>> (2 * k)) = mulMap v N (t >>> (2 * k)) := by
      have h1 := congrArg (· / 2 ^ (2 * k)) h
      simpa [add_comm, Nat.add_mul_div_right _ _ (pow_pos two_pos (2 * k)),
        Nat.div_eq_of_lt (Nat.mod_lt s (pow_pos two_pos (2 * k))),
        Nat.div_eq_of_lt (Nat.mod_lt t (pow_pos two_pos (2 * k)))] using h1
    have hmod : s >>> (2 * k) ≡ t >>> (2 * k) [MOD N] :=
      Nat.ModEq.cancel_right_of_coprime (Nat.coprime_comm.mp hv) hw
    have hu : s >>> (2 * k) = t >>> (2 * k) := by
      calc s >>> (2 * k) = s >>> (2 * k) % N := (Nat.mod_eq_of_lt hsupp_s).symm
      _ = t >>> (2 * k) % N := hmod
      _ = t >>> (2 * k) := Nat.mod_eq_of_lt hsupp_t
    have hs2 : s = s >>> (2 * k) * 2 ^ (2 * k) + s % 2 ^ (2 * k) := by
      rw [Nat.shiftRight_eq_div_pow, mul_comm]
      exact (Nat.div_add_mod s _).symm
    have ht2 : t = t >>> (2 * k) * 2 ^ (2 * k) + t % 2 ^ (2 * k) := by
      rw [Nat.shiftRight_eq_div_pow, mul_comm]
      exact (Nat.div_add_mod t _).symm
    rw [hs2, ht2, hu, hlow]

/-- The gate `mul` preserves the total squared norm of any state supported on
second-register values `< N`, for `a` coprime to `N`. -/
lemma mul_norm (k con a N : ℕ) (ψ : ℕ → ℂ) (hcon : con < 2 * k) (hN : 1 < N)
    (hNk : N ≤ 2 ^ k) (ha : Nat.Coprime a N)
    (hsupp : ∀ s, ψ s ≠ 0 → s >>> (2 * k) < N) :
    ∑ t ∈ Finset.range (2 ^ (3 * k)), Complex.normSq (mul (3 * k) con a N ψ t)
      = ∑ s ∈ Finset.range (2 ^ (3 * k)), Complex.normSq (ψ s) := by
  have hk : 3 * k / 3 = k := by omega
  have hvN : Nat.Coprime (power a (2 ^ con) N) N :=
    power_coprime a N _ ha (by positivity)
  simp only [mul, hk]
  exact sum_normSq_pushforward (Finset.range (2 ^ (3 * k))) (Finset.range (2 ^ (3 * k)))
    (mulTarget con (2 * k) (power a (2 ^ con) N) N) ψ
    (fun s hs _ => Finset.mem_range.mpr
      (mulTarget_mem k con _ N (by omega) hNk s (Finset.mem_range.1 hs)))
    (fun s hs s2 hs2 hne hne2 heq =>
      mulTarget_inj k con _ N hcon (by omega) hvN s s2 (hsupp s hne) (hsupp s2 hne2) heq)

/-- A unit-norm state on 12 qubits (`n = 4`, `m = 8`, suited to `N = 15`)
with amplitudes `±sqrt(1/2)` on the two basis states `1 = (0<<8)|1` and
`3841 = (15<<8)|1`: both have control bit 0 set and second-register values
`0` and `15`, which are congruent mod 15. -/
noncomputable def collapseState : ℕ → ℂ := fun s =>
  if s = 1 then ((Real.sqrt (1 / 2) : ℝ) : ℂ)
  else if s = 3841 then -((Real.sqrt (1 / 2) : ℝ) : ℂ) else 0

/-- Counterexample for claim C6: `mul` is a gate of the program, but applied
to the unit-norm state `collapseState` (second-register values `0` and `15`,
the latter outside `[0, N)`) it routes both amplitudes to index `1`, where
they cancel: the resulting state has squared norm `0`, not `1`. -/
theorem mul_norm_not_preserved :
    (∑ s ∈ Finset.range (2 ^ 12), Complex.normSq (collapseState s)) = 1
    ∧ (∑ t ∈ Finset.range (2 ^ 12), Complex.normSq (mul 12 0 2 15 collapseState t)) = 0 := by
  have hsub : ({1, 3841} : Finset ℕ) ⊆ Finset.range 4096 := by
    intro x hx
    rw [Finset.mem_insert, Finset.mem_singleton] at hx
    rw [Finset.mem_range]
    rcases hx with h | h <;> omega
  constructor
  · rw [show (2 : ℕ) ^ 12 = 4096 by norm_num,
      ← Finset.sum_subset hsub (fun x _ hx => ?_)]
    · rw [Finset.sum_insert (by decide), Finset.sum_singleton]
      have h1 : collapseState 1 = ((Real.sqrt (1 / 2) : ℝ) : ℂ) := by
        simp [collapseState]
      have h2 : collapseState 3841 = -((Real.sqrt (1 / 2) : ℝ) : ℂ) := by
        simp [collapseState]
      rw [h1, h2, Complex.normSq_neg, Complex.normSq_ofReal,
        Real.mul_self_sqrt (by norm_num : (0 : ℝ) ≤ 1 / 2)]
      norm_num
    · rw [Finset.mem_insert, Finset.mem_singleton] at hx
      push_neg at hx
      rw [show collapseState x = 0 from by simp [collapseState, hx.1, hx.2]]
      exact Complex.normSq_zero
  · have hv : power 2 (2 ^ 0) 15 = 4 := by simp [power, powerGo]
    have hmul0 : ∀ t, mul 12 0 2 15 collapseState t = 0 := by
      intro t
      simp only [mul, hv]
      norm_num
      rw [← Finset.sum_subset hsub (fun x _ hx => ?_)]
      · rw [Finset.sum_insert (by decide), Finset.sum_singleton]
        have e1 : mulTarget 0 8 4 15 1 = 1 := by decide
        have e2 : mulTarget 0 8 4 15 3841 = 1 := by decide
        rw [e1, e2]
        have h1 : collapseState 1 = ((Real.sqrt (1 / 2) : ℝ) : ℂ) := by
          simp [collapseState]
        have h2 : collapseState 3841 = -((Real.sqrt (1 / 2) : ℝ) : ℂ) := by
          simp [collapseState]
        rw [h1, h2]
        by_cases ht : (1 : ℕ) = t <;> simp [ht]
      · rw [Finset.mem_insert, Finset.mem_singleton] at hx
        push_neg at hx
        rw [show collapseState x = 0 from by simp [collapseState, hx.1, hx.2]]
        exact ite_self 0
    exact Finset.sum_eq_zero fun t _ => by rw [hmul0 t]; exact Complex.normSq_zero

/-- Claim C6, amended: `apply_gate` with the Hadamard or X matrix preserves
the unit norm of every state exactly; the controlled modular multiplication
`mul` preserves it for states supported on second-register values `< N`
(which covers every state arising in the program), with `a` coprime to `N`. -/
theorem gates_norm_preservation (k p con a N : ℕ) (ψ : ℕ → ℂ)
    (hp : p < 3 * k) (hcon : con < 2 * k) (hN : 1 < N) (hNk : N ≤ 2 ^ k)
    (ha : Nat.Coprime a N)
    (hψ : ∑ s ∈ Finset.range (2 ^ (3 * k)), Complex.normSq (ψ s) = 1)
    (hsupp : ∀ s, ψ s ≠ 0 → s >>> (2 * k) < N) :
    (∑ t ∈ Finset.range (2 ^ (3 * k)), Complex.normSq (apply_gate (3 * k) Hmat p ψ t) = 1)
    ∧ (∑ t ∈ Finset.range (2 ^ (3 * k)), Complex.normSq (apply_gate (3 * k) Xmat p ψ t) = 1)
    ∧ (∑ t ∈ Finset.range (2 ^ (3 * k)), Complex.normSq (mul (3 * k) con a N ψ t) = 1) := by
  refine ⟨?_, ?_, ?_⟩
  · rw [apply_gate_norm (3 * k) p Hmat ψ hp Hmat_rows]
    exact hψ
  · rw [apply_gate_norm (3 * k) p Xmat ψ hp Xmat_rows]
    exact hψ
  · rw [mul_norm k con a N ψ hcon hN hNk ha hsupp]
    exact hψ

/-- Witness for `gates_norm_preservation` at `k = 1`, `p = con = 0`, `a = 1`,
`N = 2`, on the basis state `|100⟩` (second register holds `1 < 2`). -/
theorem gates_norm_preservation_witness :
    (∑ t ∈ Finset.range (2 ^ 3), Complex.normSq (apply_gate 3 Hmat 0 (basisState 4) t) = 1)
    ∧ (∑ t ∈ Finset.range (2 ^ 3), Complex.normSq (apply_gate 3 Xmat 0 (basisState 4) t) = 1)
    ∧ (∑ t ∈ Finset.range (2 ^ 3), Complex.normSq (mul 3 0 1 2 (basisState 4) t) = 1) := by
  have hψ1 : ∑ s ∈ Finset.range (2 ^ (3 * 1)), Complex.normSq (basisState 4 s) = 1 := by
    norm_num [basisState, Finset.sum_range_succ]
  have hsupp1 : ∀ s, basisState 4 s ≠ 0 → s >>> (2 * 1) < 2 := by
    intro s h
    by_cases hs4 : s = 4
    · subst hs4
      decide
    · exfalso
      apply h
      simp [basisState, hs4]
  have h := gates_norm_preservation 1 0 0 1 2 (basisState 4) (by norm_num) (by norm_num)
    (by norm_num) (by norm_num) (by decide) hψ1 hsupp1
  simpa using h

/-- The two marginal accumulators of `measure` partition the total norm. -/
lemma pro_add (n p : ℕ) (a : ℕ → ℂ) :
    pro n a p 0 + pro n a p 1 = ∑ s ∈ Finset.range (2 ^ n), Complex.normSq (a s) := by
  unfold pro
  rw [← Finset.sum_add_distrib]
  refine Finset.sum_congr rfl fun s _ => ?_
  have h2 : (s >>> p) &&& 1 = 0 ∨ (s >>> p) &&& 1 = 1 := by
    rw [Nat.and_one_is_mod]
    omega
  rcases h2 with h | h <;> simp [h]

lemma measure_outcome_cases (n p : ℕ) (u : ℝ) (a : ℕ → ℂ) :
    (measure n p u a).1 = 0 ∨ (measure n p u a).1 = 1 := by
  simp only [measure]
  split_ifs <;> simp

/-- Claim C4: `measure(p)` on a unit-norm state: `p1 = 1 - p0`; the outcome is
`1` exactly when `u < p1`; amplitudes with bit `p` different from the outcome
are zeroed; the surviving amplitudes are divided by `sqrt(p_outcome)`; and
the marginal probability of the opposite outcome on the post-measurement
state is exactly `0`. -/
theorem measure_spec (n p : ℕ) (u : ℝ) (a : ℕ → ℂ)
    (hnorm : ∑ s ∈ Finset.range (2 ^ n), Complex.normSq (a s) = 1) :
    pro n a p 1 = 1 - pro n a p 0
    ∧ ((measure n p u a).1 = 1 ↔ u < pro n a p 1)
    ∧ (∀ s, (s >>> p) &&& 1 ≠ (measure n p u a).1 → (measure n p u a).2 s = 0)
    ∧ (∀ s, (s >>> p) &&& 1 = (measure n p u a).1 →
        (measure n p u a).2 s
          = a s / ((Real.sqrt (pro n a p (measure n p u a).1) : ℝ) : ℂ))
    ∧ pro n (measure n p u a).2 p (1 - (measure n p u a).1) = 0 := by
  have hadd : pro n a p 0 + pro n a p 1 = 1 := by
    rw [pro_add n p a]
    exact hnorm
  have hzero : ∀ s, (s >>> p) &&& 1 ≠ (measure n p u a).1 → (measure n p u a).2 s = 0 :=
    fun s hs => if_pos hs
  have hd01 := measure_outcome_cases n p u a
  refine ⟨by linarith, ?_, hzero, fun s hs => if_neg (fun hne => hne hs), ?_⟩
  · simp only [measure]
    split_ifs with h <;> simp [h]
  · simp only [pro]
    refine Finset.sum_eq_zero fun s _ => ?_
    by_cases hbit : (s >>> p) &&& 1 = 1 - (measure n p u a).1
    · rw [if_pos hbit, hzero s (by omega), Complex.normSq_zero]
    · rw [if_neg hbit]

/-- Witness for `measure_spec`: the 1-qubit state `|0⟩`, measured on qubit `0`
with draw `u = 1/2` (the binder-free conjuncts, instantiated). -/
theorem measure_spec_witness :
    pro 1 (basisState 0) 0 1 = 1 - pro 1 (basisState 0) 0 0
    ∧ ((measure 1 0 (1 / 2) (basisState 0)).1 = 1 ↔ (1 / 2 : ℝ) < pro 1 (basisState 0) 0 1)
    ∧ pro 1 (measure 1 0 (1 / 2) (basisState 0)).2 0
        (1 - (measure 1 0 (1 / 2) (basisState 0)).1) = 0 := by
  have hnorm : ∑ s ∈ Finset.range (2 ^ 1), Complex.normSq (basisState 0 s) = 1 := by
    norm_num [basisState, Finset.sum_range_succ]
  obtain ⟨h1, h2, _, _, h5⟩ := measure_spec 1 0 (1 / 2) (basisState 0) hnorm
  exact ⟨h1, h2, h5⟩

/-- Counterexample for claim C8: when the drawn outcome has probability
exactly `0`, the reference does not abort.  On the all-zero state (both
outcome probabilities `0`) `measure` selects outcome `0` with
`p_outcome = pro = 0` and returns normally: the collapse divides by
`sqrt(0)` and (in the exact model, where `z/0 = 0`) produces the all-zero
state; nothing in `Qubits::measure` can fail or abort. -/
theorem measure_zero_prob_returns :
    (measure 1 0 (1 / 2) (fun _ => 0)).1 = 0
    ∧ pro 1 (fun _ => 0) 0 0 = 0
    ∧ (measure 1 0 (1 / 2) (fun _ => 0)).2 = (fun _ => 0) := by
  have hp : ∀ c : ℕ, pro 1 (fun _ => (0 : ℂ)) 0 c = 0 := by
    intro c
    simp [pro]
  refine ⟨?_, hp 0, ?_⟩
  · simp only [measure, hp 1]
    norm_num
  · funext s
    simp only [measure]
    split_ifs <;> simp

/-- Claim C8, amended: for unit-norm states and draws `u ∈ [0,1)`, the drawn
outcome always has strictly positive probability, so the zero-probability
case never arises in the simulator's runs; and when it is forced (degenerate
states), `measure` returns normally instead of aborting
(`measure_zero_prob_returns`). -/
theorem measure_outcome_prob_pos (n p : ℕ) (u : ℝ) (a : ℕ → ℂ)
    (hnorm : ∑ s ∈ Finset.range (2 ^ n), Complex.normSq (a s) = 1)
    (h0 : 0 ≤ u) (h1 : u < 1) :
    0 < pro n a p (measure n p u a).1 := by
  have hadd : pro n a p 0 + pro n a p 1 = 1 := by
    rw [pro_add n p a]
    exact hnorm
  simp only [measure]
  split_ifs with h
  · linarith
  · push_neg at h
    linarith

/-- Witness for `measure_outcome_prob_pos` at the 1-qubit state `|0⟩`. -/
theorem measure_outcome_prob_pos_witness :
    0 < pro 1 (basisState 0) 0 (measure 1 0 (1 / 2) (basisState 0)).1 := by
  have hnorm : ∑ s ∈ Finset.range (2 ^ 1), Complex.normSq (basisState 0 s) = 1 := by
    norm_num [basisState, Finset.sum_range_succ]
  exact measure_outcome_prob_pos 1 0 (1 / 2) (basisState 0) hnorm (by norm_num) (by norm_num)

/-! ## Grover's algorithm (`Grover.cpp`) -/

/-- The loop `for(i=0;i<n;i++) st.apply_gate(H,i);` — Hadamard on every qubit. -/
noncomputable def Hall (n : ℕ) (ψ : ℕ → ℂ) : ℕ → ℂ :=
  (List.range n).foldl (fun φ i => apply_gate n Hmat i φ) ψ

/-- Embedding of `void Oracle(Qubits &st)`: negate `st.a[i]` for every
`i < N` with `w[i] == mx`, leave all other amplitudes unchanged. -/
def Oracle (N : ℕ) (w : ℕ → ℕ) (mx : ℕ) (a : ℕ → ℂ) : ℕ → ℂ :=
  fun i => if i < N ∧ w i = mx then -a i else a i

/-- Embedding of `void Diffusion(Qubits &st)`: Hadamard on every qubit,
negate every amplitude at indices `1..N-1`, Hadamard on every qubit again. -/
noncomputable def Diffusion (n : ℕ) (a : ℕ → ℂ) : ℕ → ℂ :=
  Hall n (fun i => if 1 ≤ i ∧ i < 2 ^ n then -(Hall n a i) else Hall n a i)

/-- The scan `for(i=0;i<N;i++) mx=max(mx,w[i]);` of `main` (`mx` starts 0). -/
def groverMax (n : ℕ) (w : ℕ → ℕ) : ℕ :=
  (List.range (2 ^ n)).foldl (fun mx i => max mx (w i)) 0

/-- The iteration count `int T = pai/4*sqrt(N);` of `main`: the `double`
value `π/4·√(2^n)` truncated to an integer, i.e. its floor. -/
noncomputable def groverT (n : ℕ) : ℕ := ⌊Real.pi / 4 * Real.sqrt (2 ^ n)⌋₊

/-- The state of `Grover.cpp`'s `main` after the loop
`while(T--)Oracle(st),Diffusion(st);`: `T` applications of
Oracle-then-Diffusion to the uniform superposition `H^n |0…0⟩`. -/
noncomputable def groverState (n : ℕ) (w : ℕ → ℕ) : ℕ → ℂ :=
  (fun st => Diffusion n (Oracle (2 ^ n) w (groverMax n w) st))^[groverT n]
    (Hall n (basisState 0))

lemma foldl_max_le_iff (l : List ℕ) (b x : ℕ) :
    l.foldl max b ≤ x ↔ b ≤ x ∧ ∀ a ∈ l, a ≤ x := by
  induction l generalizing b with
  | nil => simp
  | cons hd tl ih =>
    rw [List.foldl_cons, ih (max b hd)]
    simp [max_le_iff]
    tauto

lemma le_foldl_max (l : List ℕ) (b a : ℕ) (h : a ∈ l ∨ a ≤ b) : a ≤ l.foldl max b := by
  induction l generalizing b with
  | nil =>
    rcases h with h | h
    · exact absurd h (List.not_mem_nil a)
    · exact h
  | cons hd tl ih =>
    rw [List.foldl_cons]
    rcases h with h | h
    · rw [List.mem_cons] at h
      rcases h with h | h
      · refine ih (max b hd) (Or.inr ?_)
        rw [h]
        exact le_max_right b hd
      · exact ih (max b hd) (Or.inl h)
    · exact ih (max b hd) (Or.inr (le_trans h (le_max_left b hd)))

/-- For a permutation `w` of `[0, 2^n)`, the scanned maximum is `2^n - 1`. -/
lemma groverMax_eq (n : ℕ) (w : ℕ → ℕ)
    (hw : Set.BijOn w (Set.Iio (2 ^ n)) (Set.Iio (2 ^ n))) :
    groverMax n w = 2 ^ n - 1 := by
  obtain ⟨i0, hi0, hwi0⟩ := hw.surjOn (show (2 ^ n - 1 : ℕ) ∈ Set.Iio (2 ^ n) by
    simp only [Set.mem_Iio]
    have := Nat.one_le_two_pow (n := n)
    omega)
  have hmap : groverMax n w = ((List.range (2 ^ n)).map w).foldl max 0 := by
    rw [groverMax, List.foldl_map]
  rw [hmap]
  apply le_antisymm
  · rw [foldl_max_le_iff]
    refine ⟨by omega, fun a ha => ?_⟩
    rw [List.mem_map] at ha
    obtain ⟨i, hi, rfl⟩ := ha
    rw [List.mem_range] at hi
    have hlt := hw.mapsTo (show i ∈ Set.Iio (2 ^ n) from hi)
    simp only [Set.mem_Iio] at hlt
    omega
  · refine le_foldl_max _ _ _ (Or.inl ?_)
    rw [List.mem_map]
    refine ⟨i0, ?_, hwi0⟩
    rw [List.mem_range]
    exact hi0

/-- Claim C7: the Grover driver fixes `T = ⌊π/4·√(2^n)⌋` before the loop and
performs exactly `T` iterations of Oracle-then-Diffusion on the uniform
superposition; the Diffusion operator is H-all, negate all amplitudes except
index `0`, H-all; and (for a shuffled permutation `w`) there is exactly one
marked index, at which the Oracle negates the amplitude, leaving all other
amplitudes unchanged. -/
theorem grover_structure (n : ℕ) (w : ℕ → ℕ)
    (hw : Set.BijOn w (Set.Iio (2 ^ n)) (Set.Iio (2 ^ n))) :
    groverT n = ⌊Real.pi / 4 * Real.sqrt (2 ^ n)⌋₊
    ∧ groverState n w
        = (fun st => Diffusion n (Oracle (2 ^ n) w (groverMax n w) st))^[groverT n]
            (Hall n (basisState 0))
    ∧ (∀ a : ℕ → ℂ, Diffusion n a
        = Hall n (fun i => if 1 ≤ i ∧ i < 2 ^ n then -(Hall n a i) else Hall n a i))
    ∧ ∃ i0, i0 < 2 ^ n ∧ w i0 = groverMax n w
        ∧ (∀ j, j < 2 ^ n → w j = groverMax n w → j = i0)
        ∧ (∀ (a : ℕ → ℂ) (j : ℕ),
            Oracle (2 ^ n) w (groverMax n w) a j = if j = i0 then -a j else a j) := by
  have hmax := groverMax_eq n w hw
  obtain ⟨i0, hi0, hwi0⟩ := hw.surjOn (show (2 ^ n - 1 : ℕ) ∈ Set.Iio (2 ^ n) by
    simp only [Set.mem_Iio]
    have := Nat.one_le_two_pow (n := n)
    omega)
  simp only [Set.mem_Iio] at hi0
  have huniq : ∀ j, j < 2 ^ n → w j = groverMax n w → j = i0 := by
    intro j hj hwj
    refine hw.injOn (Set.mem_Iio.mpr hj) (Set.mem_Iio.mpr hi0) ?_
    rw [hwj, hwi0, hmax]
  refine ⟨rfl, rfl, fun a => rfl, i0, hi0, by rw [hwi0, hmax], huniq, fun a j => ?_⟩
  rw [Oracle]
  refine if_congr ⟨fun h => huniq j h.1 h.2, fun h => ?_⟩ rfl rfl
  subst h
  exact ⟨hi0, by rw [hwi0, hmax]⟩

/-- Witness for `grover_structure` at `n = 1` with the identity permutation. -/
theorem grover_structure_witness :
    groverT 1 = ⌊Real.pi / 4 * Real.sqrt (2 ^ 1)⌋₊
    ∧ groverState 1 (fun i => i)
        = (fun st => Diffusion 1 (Oracle (2 ^ 1) (fun i => i)
            (groverMax 1 (fun i => i)) st))^[groverT 1] (Hall 1 (basisState 0))
    ∧ groverMax 1 (fun i => i) = 1 := by
  have hw : Set.BijOn (fun i => i) (Set.Iio (2 ^ 1)) (Set.Iio (2 ^ 1)) :=
    Set.bijOn_id _
  obtain ⟨h1, h2, _, _⟩ := grover_structure 1 (fun i => i) hw
  exact ⟨h1, h2, by decide⟩

/-! ## Shor's algorithm (`QCS.cpp`) -/

/-- The first-register preparation of `shor_quantum_part`:
`for(i=0;i<m;i++) st.apply_gate(H,i);` on the fresh `(m+n)`-qubit state. -/
noncomputable def shorSuper (n : ℕ) : ℕ → ℂ :=
  (List.range (2 * n)).foldl (fun ψ i => apply_gate (3 * n) Hmat i ψ) (basisState 0)

/-- The call `st.apply_gate(X,m);` — set the second register to the value `1`. -/
noncomputable def shorAfterX (n : ℕ) : ℕ → ℂ :=
  apply_gate (3 * n) Xmat (2 * n) (shorSuper n)

/-- The measurement loops of `shor_quantum_part`
(`for(i=lo;i<lo+cnt;i++) t|=(st.measure(i)<<(i-lo));`), with the draws for
the successive `measure` calls provided by `us`. -/
noncomputable def measureRange (nq lo cnt : ℕ) (us : ℕ → ℝ) (ψ : ℕ → ℂ) : ℕ × (ℕ → ℂ) :=
  (List.range cnt).foldl
    (fun acc j =>
      let r := measure nq (lo + j) (us j) acc.2
      (acc.1 ||| (r.1 <<< j), r.2))
    (0, ψ)

/-- One attempt (one iteration of the `for(T=1;T<=10;T++)` loop) of
`shor_quantum_part`: Hadamards, X, the `m` controlled multiplications,
measurement of the second register (value `t`), `QFT(st,m,t)`, measurement
of the first register (value `aux`), then the continued-fraction search on
`aux / 2^m`.  `n` is the loop `while((1ll<<n)<N)n++;`, the least `n` with
`2^n ≥ N`, i.e. `Nat.clog 2 N`.  The result is the found period, or `0` if
the search breaks or exhausts. -/
noncomputable def shorAttempt (a N : ℕ) (us : ℕ → ℝ) : ℕ :=
  let n := Nat.clog 2 N
  let m := 2 * n
  let st1 := (List.range m).foldl (fun ψ i => mul (3 * n) i a N ψ) (shorAfterX n)
  let tm := measureRange (3 * n) m n us st1
  let st2 := QFT m tm.1 tm.2
  let am := measureRange (3 * n) 0 m (fun j => us (n + j)) st2
  cfSearch a N am.1 (2 ^ m) []

/-- The attempt loop `for(int T=1;T<=10;T++){...}` of `shor_quantum_part`,
with fuel counting the remaining iterations: the first attempt whose search
returns a nonzero period ends the loop; after the last attempt the function
returns `0`.  `us T` supplies the draws of attempt `T`. -/
noncomputable def shorQPGo (a N : ℕ) (us : ℕ → ℕ → ℝ) : ℕ → ℕ → ℕ
  | _, 0 => 0
  | T, fuel + 1 =>
    let r := shorAttempt a N (us T)
    if r ≠ 0 then r else shorQPGo a N us (T + 1) fuel

/-- Embedding of `ll shor_quantum_part(ll a,ll N)`: at most 10 attempts, then `0`. -/
noncomputable def shorQuantumPart (a N : ℕ) (us : ℕ → ℕ → ℝ) : ℕ :=
  shorQPGo a N us 1 10

/-- The decision taken by one iteration of the `do{...}while(!r||(r&1))`
loop in `factor`. -/
inductive FStep
  | factors (f1 f2 : ℕ)
  | retry
  | done (r : ℕ)
deriving DecidableEq

/-- One iteration of `factor`'s outer loop, given the drawn base `a` and the
period `r` that `shor_quantum_part` would return: if `gcd(N,a) > 1` the
factors `(g, N/g)` are printed immediately (no quantum part runs); otherwise
the loop retries exactly when `r` is `0` or odd, else falls through to the
gcd post-processing. -/
def factorIter (N a r : ℕ) : FStep :=
  if 1 < Nat.gcd N a then .factors (Nat.gcd N a) (N / Nat.gcd N a)
  else if r = 0 ∨ r % 2 = 1 then .retry
  else .done r

/-- Claim C9, amended: the base is drawn as `rnd()%(N-1)+1`, always landing
in `[1, N-1]` (uniformly only up to modulo bias, see `drawBase_not_uniform`);
`gcd(a,N) > 1` short-circuits to the factor pair without any quantum step;
with `gcd(a,N) = 1` the loop retries exactly when the returned period is `0`
or odd; and `shor_quantum_part` makes at most 10 attempts internally before
returning `0`. -/
theorem factor_loop_spec (N a r : ℕ) (us : ℕ → ℕ → ℝ) (hN : 2 ≤ N) :
    (∀ u : ℕ, 1 ≤ drawBase N u ∧ drawBase N u ≤ N - 1)
    ∧ (1 < Nat.gcd N a → factorIter N a r = .factors (Nat.gcd N a) (N / Nat.gcd N a))
    ∧ (Nat.gcd N a ≤ 1 → (factorIter N a r = .retry ↔ r = 0 ∨ r % 2 = 1))
    ∧ ((∀ T, shorAttempt a N (us T) = 0) → shorQuantumPart a N us = 0)
    ∧ (shorQuantumPart a N us ≠ 0 →
        ∃ T, 1 ≤ T ∧ T ≤ 10 ∧ shorQuantumPart a N us = shorAttempt a N (us T)) := by
  refine ⟨?_, ?_, ?_, ?_, ?_⟩
  · intro u
    unfold drawBase
    have h1 : u % (N - 1) < N - 1 := Nat.mod_lt _ (by omega)
    omega
  · intro h
    rw [factorIter, if_pos h]
  · intro h
    rw [factorIter, if_neg (by omega)]
    constructor
    · intro he
      by_contra hc
      rw [if_neg hc] at he
      exact FStep.noConfusion he
    · intro hr
      rw [if_pos hr]
  · intro hall
    have hgo : ∀ fuel T, shorQPGo a N us T fuel = 0 := by
      intro fuel
      induction fuel with
      | zero => intro T; rfl
      | succ f ih =>
        intro T
        rw [shorQPGo]
        simp [hall T]
        exact ih (T + 1)
    exact hgo 10 1
  · intro hne
    have hgo : ∀ fuel T, shorQPGo a N us T fuel ≠ 0 →
        ∃ T2, T ≤ T2 ∧ T2 < T + fuel
          ∧ shorQPGo a N us T fuel = shorAttempt a N (us T2) := by
      intro fuel
      induction fuel with
      | zero => intro T h; exact absurd rfl h
      | succ f ih =>
        intro T h
        by_cases hr : shorAttempt a N (us T) ≠ 0
        · refine ⟨T, le_refl T, by omega, ?_⟩
          rw [shorQPGo]
          simp [hr]
        · push_neg at hr
          rw [shorQPGo] at h
          simp [hr] at h
          obtain ⟨T2, h1, h2, h3⟩ := ih (T + 1) h
          refine ⟨T2, by omega, by omega, ?_⟩
          rw [shorQPGo]
          simp [hr]
          exact h3
    obtain ⟨T2, h1, h2, h3⟩ := hgo 10 1 hne
    exact ⟨T2, h1, by omega, h3⟩

/-- Witness for `factor_loop_spec` at `N = 15` with `a = 6` (a shared factor,
`gcd = 3`) and `a = 2` (coprime, period `r = 0` forces a retry). -/
theorem factor_loop_spec_witness :
    (1 ≤ drawBase 15 7 ∧ drawBase 15 7 ≤ 14)
    ∧ factorIter 15 6 0 = FStep.factors 3 5
    ∧ factorIter 15 2 0 = FStep.retry := by
  have h := factor_loop_spec 15 6 0 (fun _ _ => 1 / 2) (by norm_num)
  have h2 := factor_loop_spec 15 2 0 (fun _ _ => 1 / 2) (by norm_num)
  refine ⟨h2.1 7, ?_, (h2.2.2.1 (by decide)).mpr (Or.inl rfl)⟩
  have hg := h.2.1 (by decide)
  rw [show Nat.gcd 15 6 = 3 from by decide] at hg
  exact hg

/-! ## Support invariant of the Shor pipeline (claim C10) -/

/-- A nonzero output amplitude of `apply_gate` comes from a nonzero input
amplitude at an index differing at most in bit `p`, through a nonzero matrix
entry. -/
lemma apply_gate_support (n : ℕ) (T : ℕ → ℕ → ℂ) (p : ℕ) (a : ℕ → ℂ) (t : ℕ)
    (ht : apply_gate n T p a t ≠ 0) :
    ∃ s d, s < 2 ^ n ∧ d < 2
      ∧ s ^^^ ((((s >>> p) &&& 1) ^^^ d) <<< p) = t
      ∧ a s ≠ 0 ∧ T d ((s >>> p) &&& 1) ≠ 0 := by
  unfold apply_gate at ht
  obtain ⟨s, hs, hts⟩ := Finset.exists_ne_zero_of_sum_ne_zero ht
  obtain ⟨d, hd, htd⟩ := Finset.exists_ne_zero_of_sum_ne_zero hts
  rw [Finset.mem_range] at hs hd
  by_cases hcond : s ^^^ ((((s >>> p) &&& 1) ^^^ d) <<< p) = t
  · rw [if_pos hcond] at htd
    exact ⟨s, d, hs, hd, hcond, right_ne_zero_of_mul htd, left_ne_zero_of_mul htd⟩
  · rw [if_neg hcond] at htd
    exact absurd rfl htd

lemma sliceIdx_div_succ (p hi c lo : ℕ) (hc : c < 2) (hlo : lo < 2 ^ p) :
    sliceIdx p hi c lo / 2 ^ (p + 1) = hi := by
  rw [pow_succ, ← Nat.div_div_eq_div_mul, sliceIdx_div p hi c lo hlo]
  omega

lemma sliceIdx_shiftRight (p m hi c lo : ℕ) (hc : c < 2) (hlo : lo < 2 ^ p)
    (hpm : p < m) : sliceIdx p hi c lo >>> m = hi >>> (m - p - 1) := by
  rw [Nat.shiftRight_eq_div_pow, Nat.shiftRight_eq_div_pow]
  have e1 : (2 : ℕ) ^ m = 2 ^ (p + 1) * 2 ^ (m - p - 1) := by
    rw [← pow_add]
    congr 1
    omega
  rw [e1, ← Nat.div_div_eq_div_mul, sliceIdx_div_succ p hi c lo hc hlo]

/-- Rewriting bit `p < m` of a basis index does not change the value of the
register formed by the bits from `m` up. -/
lemma setbit_shiftRight (s d p m : ℕ) (hd : d < 2) (hpm : p < m) :
    (s ^^^ ((((s >>> p) &&& 1) ^^^ d) <<< p)) >>> m = s >>> m := by
  have hc : s / 2 ^ p % 2 < 2 := Nat.mod_lt _ two_pos
  have hlo : s % 2 ^ p < 2 ^ p := Nat.mod_lt _ (pow_pos two_pos p)
  have hbit : (s >>> p) &&& 1 = s / 2 ^ p % 2 := by
    rw [Nat.shiftRight_eq_div_pow, Nat.and_one_is_mod]
  have key := sliceIdx_setbit p (s / 2 ^ (p + 1)) (s / 2 ^ p % 2) (s % 2 ^ p) d hc hd hlo
  rw [← sliceIdx_complete p s] at key
  rw [hbit, key, sliceIdx_shiftRight p m _ _ _ hd hlo hpm]
  conv_rhs => rw [sliceIdx_complete p s]
  rw [sliceIdx_shiftRight p m _ _ _ hc hlo hpm]

/-- Gates on qubits below `m` preserve any constraint on the upper register
value `s >>> m`. -/
lemma foldl_gates_support (nq m u : ℕ) (T : ℕ → ℕ → ℂ) (l : List ℕ)
    (hl : ∀ i ∈ l, i < m) (ψ : ℕ → ℂ) (hψ : ∀ s, ψ s ≠ 0 → s >>> m = u) :
    ∀ t, (l.foldl (fun φ i => apply_gate nq T i φ) ψ) t ≠ 0 → t >>> m = u := by
  induction l generalizing ψ with
  | nil => exact hψ
  | cons p0 tl ih =>
    rw [List.foldl_cons]
    refine ih (fun i hi => hl i (List.mem_cons.mpr (Or.inr hi))) _ ?_
    intro t ht
    obtain ⟨s, d, _, hd2, heq, hsne, _⟩ := apply_gate_support nq T p0 ψ t ht
    rw [← heq, setbit_shiftRight s d p0 m hd2 (hl p0 (List.mem_cons_self p0 tl))]
    exact hψ s hsne

/-- After the `X` gate on qubit `m`, every nonzero amplitude sits on a basis
index whose second register holds exactly the value `1`. -/
lemma shorAfterX_support (n : ℕ) :
    ∀ t, shorAfterX n t ≠ 0 → t >>> (2 * n) = 1 := by
  have hsup : ∀ s, shorSuper n s ≠ 0 → s >>> (2 * n) = 0 := by
    refine foldl_gates_support (3 * n) (2 * n) 0 Hmat (List.range (2 * n))
      (fun i hi => List.mem_range.1 hi) (basisState 0) ?_
    intro s hs
    have hs0 : s = 0 := by
      by_contra hc
      exact hs (by simp [basisState, hc])
    subst hs0
    simp
  intro t ht
  obtain ⟨s, d, _, hd2, heq, hsne, hT⟩ :=
    apply_gate_support (3 * n) Xmat (2 * n) (shorSuper n) t ht
  have hs0 := hsup s hsne
  have hc0 : (s >>> (2 * n)) &&& 1 = 0 := by
    rw [hs0]
    rfl
  have hslt : s < 2 ^ (2 * n) := by
    rw [Nat.shiftRight_eq_div_pow] at hs0
    exact (Nat.div_eq_zero_iff (pow_pos two_pos _)).1 hs0
  have hd1 : d = 1 := by
    by_contra hdne
    have hd0 : d = 0 := by omega
    subst hd0
    rw [hc0] at hT
    exact hT (by simp [Xmat])
  subst hd1
  rw [← heq, hc0]
  have hs_eq : s = sliceIdx (2 * n) 0 0 s := by
    simp [sliceIdx]
  conv_lhs => rw [hs_eq]
  rw [show (0 : ℕ) ^^^ 1 = 1 from rfl,
    sliceIdx_xor_pow (2 * n) 0 0 s (by omega) hslt,
    Nat.shiftRight_eq_div_pow, sliceIdx_div (2 * n) 0 _ s hslt]

/-- The gate `mul` preserves the invariant that all nonzero amplitudes have
second-register value `< N`. -/
lemma mul_support (k con a N : ℕ) (hN : 0 < N) (ψ : ℕ → ℂ)
    (hψ : ∀ s, ψ s ≠ 0 → s >>> (2 * k) < N) :
    ∀ t, mul (3 * k) con a N ψ t ≠ 0 → t >>> (2 * k) < N := by
  intro t ht
  have hk : 3 * k / 3 = k := by omega
  simp only [mul, hk] at ht
  obtain ⟨s, _, hterm⟩ := Finset.exists_ne_zero_of_sum_ne_zero ht
  by_cases hcond : mulTarget con (2 * k) (power a (2 ^ con) N) N s = t
  swap
  · rw [if_neg hcond] at hterm
    exact absurd rfl hterm
  rw [if_pos hcond] at hterm
  rw [← hcond]
  unfold mulTarget
  split_ifs with hcon0
  · exact hψ s hterm
  · rw [Nat.and_pow_two_sub_one_eq_mod,
      lor_eq_add _ _ _ (Nat.mod_lt _ (pow_pos two_pos _)),
      Nat.shiftRight_eq_div_pow, add_comm,
      Nat.add_mul_div_right _ _ (pow_pos two_pos _),
      Nat.div_eq_of_lt (Nat.mod_lt _ (pow_pos two_pos _)), zero_add]
    exact Nat.mod_lt _ hN

/-- Measurement collapse only zeroes or rescales amplitudes, so it preserves
any support constraint. -/
lemma measure_support (nq p : ℕ) (u : ℝ) (P : ℕ → Prop) (ψ : ℕ → ℂ)
    (hψ : ∀ s, ψ s ≠ 0 → P s) :
    ∀ s, (measure nq p u ψ).2 s ≠ 0 → P s := by
  intro s hs
  refine hψ s fun hz => hs ?_
  simp only [measure]
  split_ifs <;> simp [hz]

lemma le_lor_right (a b : ℕ) : b ≤ a ||| b := by
  have h : (a ||| b) &&& b = b := by
    apply Nat.eq_of_testBit_eq
    intro j
    rw [Nat.testBit_and, Nat.testBit_or]
    cases a.testBit j <;> cases b.testBit j <;> rfl
  calc b = (a ||| b) &&& b := h.symm
  _ ≤ a ||| b := Nat.and_le_left

lemma foldl_preserve {α β : Type} (P : β → Prop) (f : β → α → β)
    (h : ∀ b x, P b → P (f b x)) : ∀ (l : List α) (b : β), P b → P (l.foldl f b) := by
  intro l
  induction l with
  | nil => intro b hb; exact hb
  | cons x tl ih =>
    intro b hb
    rw [List.foldl_cons]
    exact ih (f b x) (h b x hb)

lemma revPermute_zero (m : ℕ) : revPermute m (fun _ => (0 : ℂ)) = fun _ => 0 := by
  unfold revPermute
  refine foldl_preserve (fun g => g = fun _ => 0) _ ?_ _ _ rfl
  intro g i hg
  subst hg
  split_ifs
  · funext k
    simp [swapIdx]
  · rfl

lemma butterfly_zero (m : ℕ) : butterfly m (fun _ => (0 : ℂ)) = fun _ => 0 := by
  unfold butterfly
  refine foldl_preserve (fun g => g = fun _ => 0) _ ?_ _ _ rfl
  intro g l hg
  subst hg
  funext i
  simp [stage]

/-- The transform `QFT` preserves the support invariant: it only rewrites the slice at
second-register value `t`, and if `t ≥ N` that slice carried no amplitude, so
(in the exact model) it stays zero. -/
lemma QFT_support (m N t : ℕ) (ψ : ℕ → ℂ)
    (hψ : ∀ s, ψ s ≠ 0 → s >>> m < N) :
    ∀ r, QFT m t ψ r ≠ 0 → r >>> m < N := by
  intro r hr
  simp only [QFT] at hr
  by_cases hrt : r >>> m = t
  swap
  · rw [if_neg hrt] at hr
    exact hψ r hr
  rw [if_pos hrt] at hr
  rw [hrt]
  by_contra hc
  push_neg at hc
  have hbuf : (fun i => ψ (i ||| (t <<< m))) = fun _ => (0 : ℂ) := by
    funext i
    by_contra hz
    have hlt := hψ _ hz
    have hge : t ≤ (i ||| (t <<< m)) >>> m := by
      have h1 : (t <<< m) >>> m = t := by
        rw [Nat.shiftLeft_eq, Nat.shiftRight_eq_div_pow,
          Nat.mul_div_cancel _ (pow_pos two_pos m)]
      calc t = (t <<< m) >>> m := h1.symm
      _ ≤ (i ||| (t <<< m)) >>> m := by
          rw [Nat.shiftRight_eq_div_pow, Nat.shiftRight_eq_div_pow]
          exact Nat.div_le_div_right (le_lor_right i (t <<< m))
    omega
  rw [hbuf, revPermute_zero, butterfly_zero] at hr
  simp at hr

/-- Claim C10: after the `X` gate every nonzero amplitude has second-register
value `1 < N`; every operation of the attempt (`mul`, `measure`, `QFT`)
preserves the invariant that nonzero amplitudes have second-register value
`< N`; and on that support `mulTarget` is injective, so no two nonzero
amplitudes are routed to the same target index. -/
theorem shor_support_invariant (n N a con : ℕ) (hN : 2 ≤ N) (hcon : con < 2 * n)
    (ha : Nat.Coprime a N) :
    (∀ s, shorAfterX n s ≠ 0 → s >>> (2 * n) = 1)
    ∧ (∀ ψ : ℕ → ℂ, (∀ s, ψ s ≠ 0 → s >>> (2 * n) < N) →
        ∀ t, mul (3 * n) con a N ψ t ≠ 0 → t >>> (2 * n) < N)
    ∧ (∀ (ψ : ℕ → ℂ) (p : ℕ) (u : ℝ), (∀ s, ψ s ≠ 0 → s >>> (2 * n) < N) →
        ∀ t, (measure (3 * n) p u ψ).2 t ≠ 0 → t >>> (2 * n) < N)
    ∧ (∀ (ψ : ℕ → ℂ) (t : ℕ), (∀ s, ψ s ≠ 0 → s >>> (2 * n) < N) →
        ∀ r, QFT (2 * n) t ψ r ≠ 0 → r >>> (2 * n) < N)
    ∧ (∀ ψ : ℕ → ℂ, (∀ s, ψ s ≠ 0 → s >>> (2 * n) < N) →
        ∀ s t, ψ s ≠ 0 → ψ t ≠ 0 →
          mulTarget con (2 * n) (power a (2 ^ con) N) N s
            = mulTarget con (2 * n) (power a (2 ^ con) N) N t → s = t) := by
  refine ⟨shorAfterX_support n, fun ψ hψ => mul_support n con a N (by omega) ψ hψ,
    fun ψ p u hψ => measure_support (3 * n) p u _ ψ hψ,
    fun ψ t hψ => QFT_support (2 * n) N t ψ hψ, fun ψ hψ s t hs ht heq => ?_⟩
  exact mulTarget_inj n con _ N hcon (by omega)
    (power_coprime a N _ ha (by positivity)) s t (hψ s hs) (hψ t ht) heq

/-- Witness for `shor_support_invariant` at `n = 1`, `N = 2`, `a = 1`,
`con = 0`: the basis state `|100⟩` (second register `1 < 2`) has a nonzero
image amplitude under `mul`, and its index keeps second-register value `< 2`. -/
theorem shor_support_invariant_witness :
    mul (3 * 1) 0 1 2 (basisState 4) 4 ≠ 0 ∧ (4 : ℕ) >>> (2 * 1) < 2 := by
  have hsupp : ∀ s, basisState 4 s ≠ 0 → s >>> (2 * 1) < 2 := by
    intro s h
    by_cases hs4 : s = 4
    · subst hs4
      decide
    · exact absurd (by simp [basisState, hs4]) h
  have hmul : mul (3 * 1) 0 1 2 (basisState 4) 4 ≠ 0 := by
    have hv : power 1 1 2 = 1 := by simp [power, powerGo]
    simp only [mul]
    norm_num
    rw [hv]
    rw [Finset.sum_eq_single_of_mem 4 (by norm_num) ?_]
    · rw [show mulTarget 0 2 1 2 4 = 4 from by decide, if_pos rfl]
      simp [basisState]
    · intro s _ hne
      simp [basisState, hne]
  exact ⟨hmul, (shor_support_invariant 1 2 1 0 (by norm_num) (by norm_num)
    (by decide)).2.1 (basisState 4) hsupp 4 hmul⟩

end QCS
